import Mathlib

/-!
# Verification of `src/features/firenzecard.py`

A shallow embedding, in Lean 4, of the data-manipulation core of the
FirenzeCard exploratory-analysis script, together with theorems settling the
frozen claims about it.

Modelling conventions:
* A pandas `DataFrame` is a `List` of typed rows; column access is a field
  projection.  Row order in a frame is the list order.
* Timestamps (`entry_time`) are integer nanoseconds since the epoch
  (1970-01-01, a Thursday), exactly as pandas stores `datetime64[ns]`.
  Durations in hours are exact rationals: `Timedelta / Timedelta('1 hour')`
  is the exact ratio of nanosecond counts.
* A nullable cell is an `Option`: `none` models `NaN`/`NaT`/null.
* `pd.merge(left, right, on=ks, how='inner')` is modelled as: for each left
  row, all matching right rows (pandas key-order details only affect row
  order, which no claim depends on).  `how='outer'` additionally keeps the
  unmatched rows of both sides; `how='right'` keeps all right rows and
  duplicates a right row once per matching left row.
* Latitude/longitude columns are payload never read by any claim and are
  omitted from the row types.
-/

/-- Nanoseconds in one hour: `pd.Timedelta('1 hour')` as a nanosecond count. -/
def nsPerHour : Int := 3600000000000

/-- Nanoseconds in one day. -/
def nsPerDay : Int := 86400000000000

/-- Exact conversion of a nanosecond duration to hours, as pandas computes
`pd.Timedelta(x) / pd.Timedelta('1 hour')` (exact rational ratio). -/
def toHours (d : Int) : ℚ := (d : ℚ) / (nsPerHour : ℚ)

/-- A row of the `firenze_card_logs` table (the visit log).  `user_id = none`
models a null card identifier. -/
structure LogRow where
  user_id : Option Int
  museum_id : Int
  museum_name : String
  entry_time : Int
  total_adults : Int
  minors : Int
deriving DecidableEq

/-- A row of the `firenze_card_locations` table (museum metadata; the
latitude/longitude payload columns are not read by any claim). -/
structure LocRow where
  museum_id : Int
  museum_name : String
  short_name : String
deriving DecidableEq

/-- A merged visit row: `pd.merge(df_locations, df, on=['museum_id',
'museum_name'], how='inner')` at line 104 of `firenzecard.py`. -/
structure MRow where
  museum_id : Int
  museum_name : String
  short_name : String
  user_id : Option Int
  entry_time : Int
  total_adults : Int
  minors : Int
deriving DecidableEq

/-- Line 104: inner join of the location table with the visit log on
`(museum_id, museum_name)`.  Visits referencing unknown museums are dropped. -/
def merge_locations (df_locations : List LocRow) (df : List LogRow) : List MRow :=
  df_locations.flatMap fun loc =>
    (df.filter fun g =>
        g.museum_id = loc.museum_id ∧ g.museum_name = loc.museum_name).map fun g =>
      { museum_id := loc.museum_id
        museum_name := loc.museum_name
        short_name := loc.short_name
        user_id := g.user_id
        entry_time := g.entry_time
        total_adults := g.total_adults
        minors := g.minors }

/-- `df['hour'] = df['entry_time'].dt.hour` (line 109): hour of day, 0-23. -/
def hour_of (t : Int) : Int := (t.fdiv nsPerHour) % 24

/-- `df['day_of_week'] = df['entry_time'].dt.dayofweek` (line 110):
Monday = 0 .. Sunday = 6; the epoch day 1970-01-01 was a Thursday (3). -/
def dow_of (t : Int) : Int := (t.fdiv nsPerDay + 3) % 7

/-- `df['date'] = df['entry_time'].dt.date` (line 108), as an epoch day
number. -/
def date_of (t : Int) : Int := t.fdiv nsPerDay

/-- `df['time'] = df['entry_time'].dt.time` (line 107), as nanoseconds since
midnight. -/
def timeofday_of (t : Int) : Int := t % nsPerDay

/-- `insertSorted` inserts a row into a list already sorted by ascending
`entry_time`, after every row with an earlier-or-equal timestamp. -/
def insertSorted (a : MRow) : List MRow → List MRow
  | [] => [a]
  | b :: l => if b.entry_time ≤ a.entry_time then b :: insertSorted a l else a :: b :: l

/-- Line 112/120: `df.sort_values('entry_time', ascending=True)`.  Pandas'
default quicksort fixes no order among equal timestamps; this insertion sort
realizes one valid such ordering. -/
def sort_values : List MRow → List MRow
  | [] => []
  | a :: l => insertSorted a (sort_values l)

/-- `(df.filter user_id == u).map entry_time`: the entry timestamps of card
`u`, in frame order. -/
def user_times (l : List MRow) (u : Int) : List Int :=
  (l.filter fun r => r.user_id = some u).map fun r => r.entry_time

/-- Lines 121-124: `df[df.user_id.notnull()].groupby('user_id')['entry_time']
.transform(lambda x: x.iat[-1] - x.iat[0])`, converted to hours.  For a row
with a null card identifier the result is null (`NaN`). -/
def total_duration (whole : List MRow) (r : MRow) : Option ℚ :=
  match r.user_id with
  | none => none
  | some u =>
    match (user_times whole u).head?, (user_times whole u).getLast? with
    | some a, some b => some (toHours (b - a))
    | _, _ => none

/-- A fully featured visit row: the frame after lines 106-127. -/
structure FRow where
  row : MRow
  time : Int
  date : Int
  hour : Int
  day_of_week : Int
  total_people : Int
  time_since_previous_museum : Option ℚ
  total_duration_card_use : Option ℚ
  entry_is_adult : Int
  is_card_with_minors : Int
deriving DecidableEq

/-- Assembles one featured row; the inter-visit gap `d` is supplied by
`featurize`, every other derived column is computed from the row and from the
whole (sorted) frame. -/
def mkFRow (whole : List MRow) (r : MRow) (d : Option ℚ) : FRow :=
  { row := r
    time := timeofday_of r.entry_time
    date := date_of r.entry_time
    hour := hour_of r.entry_time
    day_of_week := dow_of r.entry_time
    total_people := r.total_adults + r.minors
    time_since_previous_museum := d
    total_duration_card_use := total_duration whole r
    entry_is_adult := if r.total_adults = 1 then 1 else 0
    is_card_with_minors := if r.minors = 1 then 1 else 0 }

/-- Lines 106-127 over a sorted frame.  `seen` maps a card identifier to the
entry time of its most recent earlier visit, so that
`df.groupby('user_id')['entry_time'].diff()` (line 116) is the difference to
the previous row of the same non-null card; rows with a null card identifier
are dropped by the groupby and get a null gap. -/
def featurize (whole : List MRow) (seen : List (Int × Int)) : List MRow → List FRow
  | [] => []
  | r :: rs =>
    match r.user_id with
    | none => mkFRow whole r none :: featurize whole seen rs
    | some u =>
      match seen.lookup u with
      | none => mkFRow whole r none :: featurize whole ((u, r.entry_time) :: seen) rs
      | some tp =>
        mkFRow whole r (some (toHours (r.entry_time - tp))) ::
          featurize whole ((u, r.entry_time) :: seen) rs

/-- Lines 106-127: sort the merged frame by entry time and add every derived
per-visit / per-card column. -/
def add_features (l : List MRow) : List FRow :=
  featurize (sort_values l) [] (sort_values l)

/-- The `(user_id, museum_id)` key of a featured row, or `none` for a null
card identifier (null keys are dropped by `groupby('user_id')`). -/
def pairOf (fr : FRow) : Option (Int × Int) :=
  fr.row.user_id.map fun u => (u, fr.row.museum_id)

/-- Lines 129-130: the distinct `(user_id, museum_id)` pairs of the
`groupby('user_id')['museum_id'].value_counts()` table. -/
def card_museum_pairs (l : List FRow) : List (Int × Int) :=
  (l.filterMap pairOf).dedup

/-- An output row of `extract_features`: a featured row with its
`entrances_per_card_per_museum` count. -/
structure OutRow where
  base : FRow
  entrances_per_card_per_museum : Nat
deriving DecidableEq

/-- Lines 94-139, `extract_features`, with the frames as inputs (the
CSV/database reads are I/O collaborators outside the embedding): inner-join
locations onto the log, derive all per-visit and per-card features, then
inner-merge the per-card-per-museum visit counts back onto the frame on
`(user_id, museum_id)` (lines 129-132), which drops rows whose card
identifier is null. -/
def extract_features (df_locations : List LocRow) (df : List LogRow) : List OutRow :=
  let featured := add_features (merge_locations df_locations df)
  (card_museum_pairs featured).flatMap fun p =>
    let hits := featured.filter fun fr => pairOf fr = some p
    hits.map fun fr => { base := fr, entrances_per_card_per_museum := hits.length }

/-- `df['museum_id'].nunique()` on the output frame (line 134). -/
def nunique_museum (l : List OutRow) : Nat :=
  ((l.map fun r => r.base.row.museum_id).dedup).length

/-- Line 134: the museum ids receiving an indicator column, i.e.
`range(1, df['museum_id'].nunique())`. -/
def museum_indicator_ids (l : List OutRow) : List Int :=
  ((List.range (nunique_museum l)).drop 1).map fun n : Nat => (n : Int)

/-- Line 135: `np.where(df['museum_id'] == n, 1, 0)`, the value of the
indicator column `is_in_museum_n` on one row. -/
def is_in_museum (n : Int) (r : OutRow) : Int :=
  if r.base.row.museum_id = n then 1 else 0

/-- The grouping-key values that can appear in a frame passed to
`interpolate_on_timedelta`: either an actual museum-id value, or the Python
builtin function `id` — the object that line 152
(`groupby_object: [id] * timedelta_range`) stores in the grouping column. -/
inductive GKey where
  | mid (n : Int)
  | pyid
deriving DecidableEq

/-- A row of an aggregated frame handed to `interpolate_on_timedelta`:
grouping key, granularity bucket (hour 0-23, day-of-week 0-6, or an epoch day
number), and the count column; `none` models `NaN`. -/
structure AggRow where
  key : GKey
  bucket : Int
  count : Option ℚ
deriving DecidableEq

/-- The three granularities accepted by the interpolator. -/
inductive Timedelta where
  | day_of_week
  | hour
  | date
deriving DecidableEq

/-- Lines 150-156, the `day_of_week`/`hour` branch of
`interpolate_on_timedelta`: build
`data = pd.DataFrame({timedelta: range(timedelta_range), groupby_object: [id] * timedelta_range})`
— the grouping column is filled with the Python **builtin function** `id`
(`GKey.pyid`), not with the observed keys — outer-merge it with `df` on
`(timedelta, groupby_object)`, and `fillna(0)`. -/
def interpolate_dow_hour (df : List AggRow) (timedelta_range : Nat) : List AggRow :=
  let data : List (Int × GKey) :=
    (List.range timedelta_range).map fun i => ((i : Int), GKey.pyid)
  let merged :=
    (data.flatMap fun bk =>
      let ms := df.filter fun r => r.bucket = bk.1 ∧ r.key = bk.2
      if ms.isEmpty then [{ key := bk.2, bucket := bk.1, count := none }] else ms) ++
    df.filter fun r => ¬ data.any fun bk => r.bucket = bk.1 ∧ r.key = bk.2
  merged.map fun r => { r with count := some (r.count.getD 0) }

/-- `pd.date_range(start_date, end_date, freq='D')` as epoch day numbers,
inclusive of both endpoints. -/
def date_range_list (start_date end_date : Int) : List Int :=
  (List.range (end_date + 1 - start_date).toNat).map fun i => start_date + (i : Int)

/-- Lines 158-168, the `date` branch of `interpolate_on_timedelta`: reindex a
zero frame on the product of the observed keys and the date range — after
`reset_index`, the column renaming `['drop this', timedelta, groupby_object,
count_column]` names the *key* level `'drop this'` and drops it, leaving key
column 0 and count column 0 — then `pd.merge(full_id_days, df, how='right',
on=[groupby_object, count_column, timedelta])`, which keeps exactly the rows
of `df` (duplicated once per matching grid row when a match exists). -/
def interpolate_date (df : List AggRow) (start_date end_date : Int) : List AggRow :=
  let uniques := (df.map fun r => r.key).dedup
  let full_id_days : List AggRow :=
    uniques.flatMap fun _ =>
      (date_range_list start_date end_date).map fun d =>
        { key := GKey.mid 0, bucket := d, count := some 0 }
  df.flatMap fun r =>
    let ms := full_id_days.filter fun l =>
      l.key = r.key ∧ l.count = r.count ∧ l.bucket = r.bucket
    if ms.isEmpty then [r] else ms.map fun _ => r

/-- Lines 142-170, `interpolate_on_timedelta` (the signature's mangled
`timedelta_range=` default is irrelevant to the body's semantics; the column
names `groupby_object`, `count_column` and `timeunit='D'` are fixed by the
row type). -/
def interpolate_on_timedelta (df : List AggRow) (timedelta : Timedelta)
    (timedelta_range : Nat) (start_date end_date : Int) : List AggRow :=
  match timedelta with
  | .day_of_week => interpolate_dow_hour df timedelta_range
  | .hour => interpolate_dow_hour df timedelta_range
  | .date => interpolate_date df start_date end_date

/-- Lines 240-269, `get_timedelta_range`: 7 for `day_of_week`, 24 for `hour`,
and `(end_date - start_date).days` for `date` (the interactive fallback for
an unrecognized granularity is unreachable over the `Timedelta` type). -/
def get_timedelta_range (timedelta : Timedelta) (start_date end_date : Int) : Nat :=
  match timedelta with
  | .day_of_week => 7
  | .hour => 24
  | .date => (end_date - start_date).toNat

/-- Line 184 of `get_museum_entries_per_timedelta_and_plot`:
`museum_list.append('All Museums')` mutates the caller's list in place before
the iteration; the mutation is modelled as explicit state passing (the
returned list is the caller's list object after the call). -/
def get_museum_entries_museum_list_update (museum_list : List String) : List String :=
  museum_list ++ ["All Museums"]

/-- A correlation coefficient as it sits in the stacked matrix
`m = df.corr(corr_method).stack()`: a finite value, an infinity, or NaN —
with IEEE comparison behaviour (`NaN > x` and `NaN < x` are false). -/
inductive CVal where
  | fin (q : ℚ)
  | posInf
  | negInf
  | nan
deriving DecidableEq

/-- `v > q` for a coefficient cell, as pandas evaluates `corr_matrix > t`. -/
def cvalGT (v : CVal) (q : ℚ) : Bool :=
  match v with
  | .fin x => q < x
  | .posInf => true
  | .negInf => false
  | .nan => false

/-- `v < q` for a coefficient cell, as pandas evaluates `corr_matrix < t`. -/
def cvalLT (v : CVal) (q : ℚ) : Bool :=
  match v with
  | .fin x => x < q
  | .posInf => false
  | .negInf => true
  | .nan => false

/-- `np.isfinite(v)`. -/
def cvalFinite (v : CVal) : Bool :=
  match v with
  | .fin _ => true
  | _ => false

/-- An entry of the stacked correlation series: the two museum-id index
levels and the coefficient. -/
structure CorrEntry where
  i : Int
  j : Int
  v : CVal
deriving DecidableEq

/-- Lines 283-306 of `get_correlation_matrix`, taking the stacked correlation
series `m` (the claims quantify over the input series; the floating-point
Pearson/Spearman/Kendall computation behind it, lines 281-282, is the
collaborator producing `m`).  Returns `(m, high_corr, inverse_corr)`:
drop the diagonal, split at the thresholds, drop non-finite values, and keep
only pairs whose two museum ids are both in the allow-list `lst`. -/
def get_correlation_matrix (m : List CorrEntry) (lst : List Int)
    (below_threshold above_threshold : ℚ) :
    List CorrEntry × List CorrEntry × List CorrEntry :=
  let corr_matrix := m.filter fun e => e.i ≠ e.j
  let high := corr_matrix.filter fun e => cvalGT e.v above_threshold
  let inverse := corr_matrix.filter fun e => cvalLT e.v below_threshold
  let high_corr := ((high.filter fun e => cvalFinite e.v).filter
      fun e => e.i ∈ lst).filter fun e => e.j ∈ lst
  let inverse_corr := ((inverse.filter fun e => cvalFinite e.v).filter
      fun e => e.i ∈ lst).filter fun e => e.j ∈ lst
  (m, high_corr, inverse_corr)

/-- The sequence of inter-visit gaps (in hours) produced by
`groupby('user_id')['entry_time'].diff()` along one card's visit timestamps,
given the timestamp of the card's most recent earlier visit (`none` if there
is none yet).  This characterizes what `featurize` stores for one card. -/
def diffSeq : Option Int → List Int → List (Option ℚ)
  | _, [] => []
  | none, t :: ts => none :: diffSeq (some t) ts
  | some tp, t :: ts => some (toHours (t - tp)) :: diffSeq (some t) ts

/-- Modelled from the spec's wording for comparison: "for each card, sorted by
entry timestamp ascending, the gap (in hours) to the prior visit by the same
card; first visit per card has no defined gap".  The first entry is null and
each later entry is its timestamp minus the immediately preceding one. -/
def gapsSpec : List Int → List (Option ℚ)
  | [] => []
  | t :: ts => none :: List.zipWith (fun b a => some (toHours (b - a))) ts (t :: ts)

/-- The featured rows of one card, in the (time-sorted) frame order of
lines 106-127. -/
def visits_of_card (df_locations : List LocRow) (df : List LogRow) (c : Int) : List FRow :=
  (add_features (merge_locations df_locations df)).filter fun fr => fr.row.user_id = some c

/-- Concrete aggregated frame: one key (museum 1) observed in one bucket. -/
def c1ex : List AggRow := [{ key := GKey.mid 1, bucket := 0, count := some 3 }]

/-- Concrete fully-populated `day_of_week` grid: museum 1 in every bucket
0-6, each exactly once. -/
def c4ex : List AggRow :=
  (List.range 7).map fun i => { key := GKey.mid 1, bucket := (i : Int), count := some 1 }

/-- Concrete location table for witnesses. -/
def exLocs : List LocRow := [⟨1, "Uffizi", "uffizi"⟩, ⟨2, "Duomo", "duomo"⟩]

/-- Concrete visit log for witnesses: card 10 visits museums 1 and 2 two
hours apart, card 11 makes a single visit, and one visit has a null card. -/
def exLogs : List LogRow :=
  [⟨some 10, 1, "Uffizi", 0, 1, 0⟩,
   ⟨some 10, 2, "Duomo", 7200000000000, 1, 1⟩,
   ⟨some 11, 1, "Uffizi", 3600000000000, 2, 0⟩,
   ⟨none, 1, "Uffizi", 1800000000000, 1, 0⟩]

/-- Proof-side fiber key: the `(user_id, museum_id)` key of a featured row
when that row belongs to card `c`, else `none`.  Used to partition the
count-merge output of `extract_features` by card. -/
def card_key (c : Int) (fr : FRow) : Option (Int × Int) :=
  if fr.row.user_id = some c then pairOf fr else none

/-- Concrete stacked correlation series for the correlation witness. -/
def exCorr : List CorrEntry :=
  [⟨1, 2, .fin (9/10)⟩, ⟨2, 1, .fin (-9/10)⟩, ⟨1, 1, .fin 1⟩,
   ⟨1, 3, .posInf⟩, ⟨3, 1, .nan⟩]

/-- Concrete museum allow-list for the correlation witness. -/
def exLst : List Int := [1, 2]

/-! ## Theorems -/

/-- `l.flatMap` of a constantly empty function is empty. -/
theorem flatMap_const_nil {α β : Type} (l : List α) :
    (l.flatMap fun _ => ([] : List β)) = [] := by
  induction l with
  | nil => rfl
  | cons x l ih => simp [List.flatMap_cons, ih]

/-- C1: the claim demands that `interpolate_on_timedelta` return every
`(observed key, bucket)` combination of the full domain exactly once, with
count 0 where unobserved.  On the aggregate frame `c1ex` (museum 1 observed
in hour bucket 0 only) the hour-granularity output contains the required
combination `(museum 1, hour 5)` zero times, while it does contain 24 rows
keyed by the Python builtin function `id` — the grouping column of the
scaffold frame is `[id] * timedelta_range`, not the observed keys. -/
theorem interpolate_missing_bucket_bug :
    ((interpolate_on_timedelta c1ex .hour 24 0 0).filter
        fun r => r.key = GKey.mid 1 ∧ r.bucket = 5).length = 0 ∧
    ((interpolate_on_timedelta c1ex .hour 24 0 0).filter
        fun r => r.key = GKey.pyid).length = 24 := by
  constructor <;> decide

/-- C2: the claim demands exactly `24 × (#distinct keys)` output rows at
hour granularity.  On `c1ex` there is exactly one distinct key, yet the
output of `interpolate_on_timedelta` (with the range that
`get_timedelta_range` supplies for `hour`) has 25 rows, not 24: the input
row plus the 24 scaffold rows keyed by the Python builtin `id`. -/
theorem interpolate_row_count_bug :
    ((c1ex.map fun r => r.key).dedup).length = 1 ∧
    (interpolate_on_timedelta c1ex .hour (get_timedelta_range .hour 0 0) 0 0).length = 25 := by
  constructor <;> decide

/-- C4: the claim demands that interpolating an already fully populated grid
return it unchanged as a set of rows.  `c4ex` is a full `day_of_week` grid
(museum 1 in every bucket 0-6, exactly once), yet the output has 14 rows and
contains rows (the 7 scaffold rows keyed by the Python builtin `id`) that are
not rows of the input, so the output is not the input as a set of rows. -/
theorem interpolate_not_idempotent :
    (interpolate_on_timedelta c4ex .day_of_week 7 0 0).length = 14 ∧
    ((interpolate_on_timedelta c4ex .day_of_week 7 0 0).all
        fun r => decide (r ∈ c4ex)) = false := by
  constructor <;> decide

/-- C10: `get_museum_entries_per_timedelta_and_plot` appends
`'All Museums'` to its `museum_list` argument in place before iterating, so
after the call the caller's list is one element longer, and `n` repeated
calls on the same list leave it `n` elements longer. -/
theorem museum_list_append_grows (museum_list : List String) :
    (get_museum_entries_museum_list_update museum_list).length = museum_list.length + 1 ∧
    ∀ n : Nat, (get_museum_entries_museum_list_update^[n] museum_list).length
        = museum_list.length + n := by
  constructor
  · simp [get_museum_entries_museum_list_update]
  · intro n
    induction n generalizing museum_list with
    | zero => simp
    | succ k ih =>
      rw [Function.iterate_succ_apply, ih]
      simp [get_museum_entries_museum_list_update]
      omega

/-- C8: on a visit log with zero rows, `extract_features` returns an empty
frame (and generates no museum indicator columns) without failing. -/
theorem extract_features_empty (df_locations : List LocRow) :
    extract_features df_locations [] = [] ∧
    museum_indicator_ids (extract_features df_locations []) = [] := by
  have hm : merge_locations df_locations [] = [] := by
    simp [merge_locations, flatMap_const_nil df_locations]
  constructor
  · simp [extract_features, add_features, hm, sort_values, featurize, card_museum_pairs]
  · simp [museum_indicator_ids, nunique_museum, extract_features, add_features, hm,
      sort_values, featurize, card_museum_pairs]

/-- C9: every row of the frame returned by `extract_features` has a non-null
card identifier: the per-card-per-museum counts are grouped by `user_id`
(dropping null keys) and inner-merged back on `(user_id, museum_id)`, so
visits with a null card identifier are absent from the output altogether. -/
theorem extract_features_drops_null_users (df_locations : List LocRow) (df : List LogRow) :
    ((extract_features df_locations df).all fun r => r.base.row.user_id.isSome) = true := by
  rw [List.all_eq_true]
  intro r hr
  unfold extract_features at hr
  simp only [List.mem_flatMap, List.mem_map, List.mem_filter] at hr
  obtain ⟨p, _, fr, ⟨_, hpair⟩, rfl⟩ := hr
  simp only [decide_eq_true_eq] at hpair
  simp only [pairOf, Option.map_eq_some'] at hpair
  obtain ⟨u, hu, _⟩ := hpair
  simp [hu]

/-- C5: for every input series, allow-list and thresholds, every entry of
the returned `high_corr` set pairs two distinct museums, has a finite
coefficient strictly above `above_threshold`, and has both museum ids in the
allow-list; symmetrically every `inverse_corr` entry has a finite
coefficient strictly below `below_threshold` and both ids in the allow-list;
and whenever `below_threshold ≤ above_threshold` the two sets are
disjoint. -/
theorem correlation_filter_properties (m : List CorrEntry) (lst : List Int)
    (below_threshold above_threshold : ℚ) :
    ((get_correlation_matrix m lst below_threshold above_threshold).2.1.all fun e =>
        decide (e.i ≠ e.j) && cvalFinite e.v && cvalGT e.v above_threshold &&
        decide (e.i ∈ lst) && decide (e.j ∈ lst)) = true ∧
    ((get_correlation_matrix m lst below_threshold above_threshold).2.2.all fun e =>
        decide (e.i ≠ e.j) && cvalFinite e.v && cvalLT e.v below_threshold &&
        decide (e.i ∈ lst) && decide (e.j ∈ lst)) = true ∧
    (below_threshold ≤ above_threshold →
      ((get_correlation_matrix m lst below_threshold above_threshold).2.1.all fun e =>
          !(decide (e ∈ (get_correlation_matrix m lst below_threshold above_threshold).2.2)))
        = true) := by
  simp only [get_correlation_matrix]
  refine ⟨?_, ?_, ?_⟩
  · rw [List.all_eq_true]
    intro e he
    simp only [List.mem_filter, decide_eq_true_eq] at he
    obtain ⟨⟨⟨⟨⟨_, hne⟩, hgt⟩, hfin⟩, hi⟩, hj⟩ := he
    simp [hne, hgt, hfin, hi, hj]
  · rw [List.all_eq_true]
    intro e he
    simp only [List.mem_filter, decide_eq_true_eq] at he
    obtain ⟨⟨⟨⟨⟨_, hne⟩, hlt⟩, hfin⟩, hi⟩, hj⟩ := he
    simp [hne, hlt, hfin, hi, hj]
  · intro h
    rw [List.all_eq_true]
    intro e he
    simp only [List.mem_filter, decide_eq_true_eq] at he
    obtain ⟨⟨⟨⟨⟨_, _⟩, hgt⟩, hfin⟩, _⟩, _⟩ := he
    simp only [Bool.not_eq_true', decide_eq_false_iff_not]
    intro hmem
    simp only [List.mem_filter, decide_eq_true_eq] at hmem
    obtain ⟨⟨⟨⟨⟨_, _⟩, hlt⟩, _⟩, _⟩, _⟩ := hmem
    cases hv : e.v with
    | fin q =>
      rw [hv] at hgt hlt
      simp only [cvalGT, cvalLT, decide_eq_true_eq] at hgt hlt
      linarith
    | posInf => rw [hv] at hlt; simp [cvalLT] at hlt
    | negInf => rw [hv] at hgt; simp [cvalGT] at hgt
    | nan => rw [hv] at hgt; simp [cvalGT] at hgt

/-- Witness for C5 at a concrete series, allow-list and thresholds, with the
disjointness side condition discharged. -/
theorem correlation_filter_properties_witness :
    ((get_correlation_matrix exCorr exLst (-(1/2)) (1/2)).2.1.all fun e =>
        decide (e.i ≠ e.j) && cvalFinite e.v && cvalGT e.v (1/2) &&
        decide (e.i ∈ exLst) && decide (e.j ∈ exLst)) = true ∧
    ((get_correlation_matrix exCorr exLst (-(1/2)) (1/2)).2.2.all fun e =>
        decide (e.i ≠ e.j) && cvalFinite e.v && cvalLT e.v (-(1/2)) &&
        decide (e.i ∈ exLst) && decide (e.j ∈ exLst)) = true ∧
    ((get_correlation_matrix exCorr exLst (-(1/2)) (1/2)).2.1.all fun e =>
        !(decide (e ∈ (get_correlation_matrix exCorr exLst (-(1/2)) (1/2)).2.2))) = true :=
  ⟨(correlation_filter_properties exCorr exLst (-(1/2)) (1/2)).1,
   (correlation_filter_properties exCorr exLst (-(1/2)) (1/2)).2.1,
   (correlation_filter_properties exCorr exLst (-(1/2)) (1/2)).2.2 (by norm_num)⟩

/-- Membership in `insertSorted`. -/
theorem mem_insertSorted (a x : MRow) (l : List MRow) :
    x ∈ insertSorted a l ↔ x = a ∨ x ∈ l := by
  induction l with
  | nil => simp [insertSorted]
  | cons b l ih =>
    simp only [insertSorted]
    split
    · simp only [List.mem_cons, ih]
      tauto
    · simp [List.mem_cons]

/-- `insertSorted` preserves sortedness by ascending `entry_time`. -/
theorem pairwise_insertSorted (a : MRow) (l : List MRow)
    (h : l.Pairwise fun x y => x.entry_time ≤ y.entry_time) :
    (insertSorted a l).Pairwise fun x y => x.entry_time ≤ y.entry_time := by
  induction l with
  | nil => simp [insertSorted]
  | cons b l ih =>
    rw [List.pairwise_cons] at h
    obtain ⟨hb, hl⟩ := h
    simp only [insertSorted]
    split
    · rename_i hba
      rw [List.pairwise_cons]
      refine ⟨?_, ih hl⟩
      intro x hx
      rcases (mem_insertSorted a x l).mp hx with rfl | hx
      · exact hba
      · exact hb x hx
    · rename_i hba
      push_neg at hba
      rw [List.pairwise_cons]
      refine ⟨?_, List.pairwise_cons.mpr ⟨hb, hl⟩⟩
      intro x hx
      rcases List.mem_cons.mp hx with rfl | hx
      · exact le_of_lt hba
      · exact le_trans (le_of_lt hba) (hb x hx)

/-- The frame produced by `sort_values` is sorted by ascending `entry_time`. -/
theorem sort_values_pairwise (l : List MRow) :
    (sort_values l).Pairwise fun x y => x.entry_time ≤ y.entry_time := by
  induction l with
  | nil => simp [sort_values]
  | cons a l ih => exact pairwise_insertSorted a _ ih

/-- Restricted to the rows of card `c`, `featurize` keeps the underlying rows
and stores exactly the per-card difference sequence of
`groupby('user_id')['entry_time'].diff()`, seeded by the card's most recent
earlier timestamp recorded in `seen`. -/
theorem featurize_filter_card (whole : List MRow) (c : Int) :
    ∀ (rows : List MRow) (seen : List (Int × Int)),
    (((featurize whole seen rows).filter fun fr => fr.row.user_id = some c).map
        fun fr => fr.row) = rows.filter (fun r => r.user_id = some c) ∧
    (((featurize whole seen rows).filter fun fr => fr.row.user_id = some c).map
        fun fr => fr.time_since_previous_museum)
      = diffSeq (List.lookup c seen)
          ((rows.filter fun r => r.user_id = some c).map fun r => r.entry_time) := by
  intro rows
  induction rows with
  | nil => intro seen; simp [featurize, diffSeq]
  | cons r rs ih =>
    intro seen
    cases hu : r.user_id with
    | none =>
      have h := ih seen
      simp only [featurize, hu, List.filter_cons, mkFRow, decide_eq_true_eq]
      simp [h.1, h.2, hu]
    | some u =>
      by_cases hc : u = c
      · subst hc
        have hcu : (u == u) = true := beq_self_eq_true u
        cases hl : List.lookup u seen with
        | none =>
          have h := ih ((u, r.entry_time) :: seen)
          have hlk : List.lookup u ((u, r.entry_time) :: seen) = some r.entry_time := by
            simp [List.lookup]
          simp only [featurize, hu, hl, List.filter_cons, mkFRow, decide_eq_true_eq]
          simp [h.1, h.2, hu, hlk, hl, diffSeq]
        | some tp =>
          have h := ih ((u, r.entry_time) :: seen)
          have hlk : List.lookup u ((u, r.entry_time) :: seen) = some r.entry_time := by
            simp [List.lookup]
          simp only [featurize, hu, hl, List.filter_cons, mkFRow, decide_eq_true_eq]
          simp [h.1, h.2, hu, hlk, hl, diffSeq]
      · have h := ih ((u, r.entry_time) :: seen)
        have hne : (c == u) = false := by
          rw [beq_eq_false_iff_ne]
          exact fun hcu => hc hcu.symm
        have hlk : List.lookup c ((u, r.entry_time) :: seen) = List.lookup c seen := by
          simp [List.lookup, hne]
        cases hl : List.lookup u seen with
        | none =>
          simp only [featurize, hu, hl, List.filter_cons, mkFRow, decide_eq_true_eq]
          simp [h.1, h.2, hu, hlk, hc, Option.some.injEq]
        | some tp =>
          simp only [featurize, hu, hl, List.filter_cons, mkFRow, decide_eq_true_eq]
          simp [h.1, h.2, hu, hlk, hc, Option.some.injEq]

/-- Every row produced by `featurize` carries
`total_duration_card_use = total_duration whole row`. -/
theorem featurize_duration (whole : List MRow) :
    ∀ (rows : List MRow) (seen : List (Int × Int)) (fr : FRow),
    fr ∈ featurize whole seen rows →
    fr.total_duration_card_use = total_duration whole fr.row := by
  intro rows
  induction rows with
  | nil => intro seen fr h; simp [featurize] at h
  | cons r rs ih =>
    intro seen fr h
    cases hu : r.user_id with
    | none =>
      simp only [featurize, hu] at h
      rcases List.mem_cons.mp h with rfl | h
      · simp [mkFRow]
      · exact ih seen fr h
    | some u =>
      cases hl : List.lookup u seen with
      | none =>
        simp only [featurize, hu, hl] at h
        rcases List.mem_cons.mp h with rfl | h
        · simp [mkFRow]
        · exact ih _ fr h
      | some tp =>
        simp only [featurize, hu, hl] at h
        rcases List.mem_cons.mp h with rfl | h
        · simp [mkFRow]
        · exact ih _ fr h

/-- `diffSeq` with a previous timestamp is the zip of each timestamp with its
predecessor. -/
theorem diffSeq_eq_zipWith (ts : List Int) : ∀ tp : Int,
    diffSeq (some tp) ts = List.zipWith (fun b a => some (toHours (b - a))) ts (tp :: ts) := by
  induction ts with
  | nil => intro tp; simp [diffSeq]
  | cons t ts ih => intro tp; simp [diffSeq, ih t]

/-- `diffSeq` from scratch is exactly the spec-side gap sequence. -/
theorem diffSeq_none_eq_gapsSpec (ts : List Int) : diffSeq none ts = gapsSpec ts := by
  cases ts with
  | nil => rfl
  | cons t ts => simp [diffSeq, gapsSpec, diffSeq_eq_zipWith]

/-- Telescoping: the sum of per-visit gaps started at `tp` reaches the last
timestamp. -/
theorem diffSeq_some_sum (ts : List Int) : ∀ tp : Int,
    ((diffSeq (some tp) ts).map fun x => x.getD 0).sum = toHours (ts.getLastD tp - tp) := by
  induction ts with
  | nil => intro tp; simp [diffSeq, toHours]
  | cons t ts ih =>
    intro tp
    simp only [diffSeq, List.map_cons, List.sum_cons, Option.getD_some, ih t,
      List.getLastD_cons]
    unfold toHours
    rw [div_add_div_same]
    congr 1
    push_cast
    ring

/-- Telescoping from scratch: the gap sum of a card's visit list is last
minus first. -/
theorem diffSeq_none_sum (ts : List Int) :
    ((diffSeq none ts).map fun x => x.getD 0).sum = toHours (ts.getLastD 0 - ts.headD 0) := by
  cases ts with
  | nil => simp [diffSeq, toHours]
  | cons t ts =>
    simp only [diffSeq, List.map_cons, List.sum_cons, Option.getD_none, diffSeq_some_sum,
      List.headD_cons, List.getLastD_cons, zero_add]

/-- On a card with at least one visit, `total_duration` is last minus first
of the card's timestamps, in hours. -/
theorem total_duration_eq (whole : List MRow) (u : Int) (r : MRow)
    (hu : r.user_id = some u) (hne : user_times whole u ≠ []) :
    total_duration whole r
      = some (toHours ((user_times whole u).getLastD 0 - (user_times whole u).headD 0)) := by
  cases hts : user_times whole u with
  | nil => exact absurd hts hne
  | cons t ts =>
    have hlast : (t :: ts).getLast?.isSome := by
      rw [List.getLast?_isSome]
      simp
    obtain ⟨b, hb⟩ := Option.isSome_iff_exists.mp hlast
    simp only [total_duration, hu, hts, List.head?_cons, hb, List.headD_cons]
    simp [hb]

/-- C6: for every card, the rows of that card in the featured frame are in
ascending entry-time order; the stored `time_since_previous_museum` column on
them equals the gap sequence (first visit null, each later visit its
timestamp minus the immediately preceding one, in hours); and a card with a
single visit gets `time_since_previous_museum = NaN` and
`total_duration_card_use = 0`. -/
theorem gap_matches_previous_visit (df_locations : List LocRow) (df : List LogRow) (c : Int) :
    (visits_of_card df_locations df c).Pairwise
        (fun a b => a.row.entry_time ≤ b.row.entry_time) ∧
    ((visits_of_card df_locations df c).map fun fr => fr.time_since_previous_museum)
      = gapsSpec ((visits_of_card df_locations df c).map fun fr => fr.row.entry_time) ∧
    ((visits_of_card df_locations df c).length = 1 →
      ((visits_of_card df_locations df c).map fun fr => fr.time_since_previous_museum)
          = [none] ∧
      ((visits_of_card df_locations df c).map fun fr => fr.total_duration_card_use)
          = [some 0]) := by
  have hfc := featurize_filter_card (sort_values (merge_locations df_locations df)) c
    (sort_values (merge_locations df_locations df)) []
  have hvs : visits_of_card df_locations df c
      = (featurize (sort_values (merge_locations df_locations df)) []
          (sort_values (merge_locations df_locations df))).filter
            fun fr => fr.row.user_id = some c := rfl
  have hmap_row : ((visits_of_card df_locations df c).map fun fr => fr.row)
      = (sort_values (merge_locations df_locations df)).filter
          fun r => r.user_id = some c := by
    rw [hvs]; exact hfc.1
  have htimes : ((visits_of_card df_locations df c).map fun fr => fr.row.entry_time)
      = user_times (sort_values (merge_locations df_locations df)) c := by
    have h := congrArg (List.map fun r : MRow => r.entry_time) hmap_row
    rw [List.map_map] at h
    exact h
  have hut : ((( sort_values (merge_locations df_locations df)).filter
        fun r => r.user_id = some c).map fun r => r.entry_time)
      = user_times (sort_values (merge_locations df_locations df)) c := rfl
  have hpair : (visits_of_card df_locations df c).Pairwise
      fun a b => a.row.entry_time ≤ b.row.entry_time := by
    have h1 : (((visits_of_card df_locations df c).map fun fr => fr.row).Pairwise
        fun x y => x.entry_time ≤ y.entry_time) := by
      rw [hmap_row]
      exact (sort_values_pairwise _).filter _
    exact (List.pairwise_map (R := fun x y : MRow => x.entry_time ≤ y.entry_time)
      (f := fun fr : FRow => fr.row)).mp h1
  have hgaps : ((visits_of_card df_locations df c).map fun fr => fr.time_since_previous_museum)
      = gapsSpec ((visits_of_card df_locations df c).map fun fr => fr.row.entry_time) := by
    rw [hvs]
    rw [hfc.2]
    show diffSeq none _ = _
    rw [diffSeq_none_eq_gapsSpec]
    rw [hut, ← htimes]
    rfl
  refine ⟨hpair, hgaps, ?_⟩
  intro hlen
  obtain ⟨v, hv⟩ := List.length_eq_one.mp hlen
  have hvmem : v ∈ visits_of_card df_locations df c := by
    rw [hv]; exact List.mem_singleton.mpr rfl
  have hvfeat : v ∈ featurize (sort_values (merge_locations df_locations df)) []
      (sort_values (merge_locations df_locations df)) :=
    List.mem_of_mem_filter (hvs ▸ hvmem)
  have hvuser : v.row.user_id = some c := by
    have := (List.mem_filter.mp (hvs ▸ hvmem)).2
    exact of_decide_eq_true this
  have hsingle : user_times (sort_values (merge_locations df_locations df)) c
      = [v.row.entry_time] := by
    rw [← htimes, hv]
    rfl
  constructor
  · rw [hv] at hgaps
    rw [hv]
    simpa [gapsSpec] using hgaps
  · rw [hv, List.map_singleton]
    have hdur := featurize_duration (sort_values (merge_locations df_locations df)) _ _ v hvfeat
    rw [total_duration_eq _ c v.row hvuser (by rw [hsingle]; simp)] at hdur
    rw [hsingle] at hdur
    simp only [List.getLastD_eq_getLast?, List.getLast?_singleton, Option.getD_some,
      List.headD_cons, sub_self] at hdur
    rw [hdur]
    simp [toHours]

/-- Mapping every element to `0` sums to `0`. -/
theorem sum_map_zero {κ : Type} (ks : List κ) : (ks.map fun _ => (0 : ℚ)).sum = 0 := by
  induction ks with
  | nil => rfl
  | cons k ks ih => simp [ih]

/-- The filtered-mapped sum over a `flatMap` is the sum of the per-element
filtered-mapped sums. -/
theorem sum_filter_flatMap {α β : Type} (ps : List α) (F : α → List β) (q : β → Bool)
    (g : β → ℚ) :
    (((ps.flatMap F).filter q).map g).sum
      = (ps.map fun p => (((F p).filter q).map g).sum).sum := by
  induction ps with
  | nil => simp
  | cons p ps ih =>
    simp [List.flatMap_cons, List.filter_append, List.map_append, List.sum_append, ih]

/-- Adding `x` at exactly one key of a duplicate-free key list adds `x` to
the mapped sum. -/
theorem sum_map_ite_mem {κ : Type} [DecidableEq κ] (k0 : κ) (g : κ → ℚ) (x : ℚ) :
    ∀ ks : List κ, k0 ∈ ks → ks.Nodup →
    (ks.map fun k => if k = k0 then x + g k else g k).sum = x + (ks.map g).sum := by
  intro ks
  induction ks with
  | nil => intro hk; cases hk
  | cons k ks ih =>
    intro hk hnd
    rw [List.nodup_cons] at hnd
    rcases List.mem_cons.mp hk with rfl | hk'
    · simp only [List.map_cons, List.sum_cons, if_pos rfl]
      have hcongr : (ks.map fun a => if a = k0 then x + g a else g a) = ks.map g := by
        apply List.map_congr_left
        intro a ha
        rw [if_neg]
        intro h
        exact hnd.1 (h ▸ ha)
      rw [hcongr]
      simp [add_assoc]
    · have hkne : k ≠ k0 := fun h => hnd.1 (h ▸ hk')
      simp only [List.map_cons, List.sum_cons, if_neg hkne]
      rw [ih hk' hnd.2]
      ring

/-- Fiberwise summation: summing the per-key filtered sums over a
duplicate-free key list covering all keys equals the sum over the rows whose
key is defined. -/
theorem sum_fiberwise {α κ : Type} [DecidableEq κ] (key : α → Option κ) (g : α → ℚ) :
    ∀ (l : List α) (ks : List κ), ks.Nodup →
    (∀ x ∈ l, ∀ p, key x = some p → p ∈ ks) →
    (ks.map fun p => ((l.filter fun x => key x = some p).map g).sum).sum
      = ((l.filter fun x => (key x).isSome).map g).sum := by
  intro l
  induction l with
  | nil =>
    intro ks _ _
    simp [sum_map_zero]
  | cons x l ih =>
    intro ks hnd hcov
    have hcov' : ∀ y ∈ l, ∀ p, key y = some p → p ∈ ks := fun y hy =>
      hcov y (List.mem_cons_of_mem x hy)
    cases hx : key x with
    | none =>
      have hL : (ks.map fun p => (((x :: l).filter fun y => key y = some p).map g).sum)
          = ks.map fun p => ((l.filter fun y => key y = some p).map g).sum := by
        apply List.map_congr_left
        intro p _
        rw [List.filter_cons]
        simp [hx]
      rw [hL, ih ks hnd hcov']
      rw [List.filter_cons]
      simp [hx]
    | some p0 =>
      have hp0 : p0 ∈ ks := hcov x (List.mem_cons_self x l) p0 hx
      have hL : (ks.map fun p => (((x :: l).filter fun y => key y = some p).map g).sum)
          = ks.map fun p => if p = p0 then g x + ((l.filter fun y => key y = some p).map g).sum
              else ((l.filter fun y => key y = some p).map g).sum := by
        apply List.map_congr_left
        intro p _
        rw [List.filter_cons]
        by_cases hp : p = p0
        · subst hp
          simp [hx]
        · have : ¬ (key x = some p) := by
            rw [hx]
            intro h
            exact hp (Option.some.inj h).symm
          simp [this, hp]
      rw [hL, sum_map_ite_mem p0 _ (g x) ks hp0 hnd, ih ks hnd hcov']
      rw [List.filter_cons]
      simp [hx]

/-- `card_key c fr = some p` iff the row belongs to card `c` and has pair
key `p`. -/
theorem card_key_eq_some (c : Int) (fr : FRow) (p : Int × Int) :
    card_key c fr = some p ↔ fr.row.user_id = some c ∧ pairOf fr = some p := by
  unfold card_key
  by_cases h : fr.row.user_id = some c
  · simp [h]
  · simp [h]

/-- `card_key c fr` is defined exactly on the rows of card `c`. -/
theorem card_key_isSome (c : Int) (fr : FRow) :
    (card_key c fr).isSome = decide (fr.row.user_id = some c) := by
  unfold card_key
  by_cases h : fr.row.user_id = some c
  · simp [h, pairOf]
  · simp [h]

/-- Every output row of `extract_features` wraps a row of the featured
frame. -/
theorem mem_extract_features_base (df_locations : List LocRow) (df : List LogRow)
    (r : OutRow) (hr : r ∈ extract_features df_locations df) :
    r.base ∈ add_features (merge_locations df_locations df) := by
  unfold extract_features at hr
  simp only [List.mem_flatMap, List.mem_map] at hr
  obtain ⟨p, _, fr, hfr, rfl⟩ := hr
  exact List.mem_of_mem_filter hfr

/-- The count-merge of lines 129-132 neither drops nor duplicates any row of
a given card: any per-row quantity sums to the same value over the output of
`extract_features` restricted to card `c` as over the featured frame
restricted to card `c`. -/
theorem sum_over_output (df_locations : List LocRow) (df : List LogRow) (c : Int)
    (f : FRow → ℚ) :
    (((extract_features df_locations df).filter fun r => r.base.row.user_id = some c).map
        fun r => f r.base).sum
      = (((add_features (merge_locations df_locations df)).filter
            fun fr => fr.row.user_id = some c).map f).sum := by
  have hx : extract_features df_locations df
      = (card_museum_pairs (add_features (merge_locations df_locations df))).flatMap
          fun p =>
            ((add_features (merge_locations df_locations df)).filter
                fun fr => pairOf fr = some p).map
              fun fr =>
                ({ base := fr,
                   entrances_per_card_per_museum :=
                     ((add_features (merge_locations df_locations df)).filter
                         fun fr => pairOf fr = some p).length } : OutRow) := rfl
  rw [hx, sum_filter_flatMap]
  have hper : ∀ p ∈ card_museum_pairs (add_features (merge_locations df_locations df)),
      (((((add_features (merge_locations df_locations df)).filter
              fun fr => pairOf fr = some p).map
            fun fr =>
              ({ base := fr,
                 entrances_per_card_per_museum :=
                   ((add_features (merge_locations df_locations df)).filter
                       fun fr => pairOf fr = some p).length } : OutRow)).filter
          fun r => r.base.row.user_id = some c).map fun r => f r.base).sum
      = (((add_features (merge_locations df_locations df)).filter
            fun fr => card_key c fr = some p).map f).sum := by
    intro p _
    rw [List.filter_map, List.map_map]
    rw [List.filter_filter]
    simp only [Function.comp]
    dsimp only
    have hcongr : ((add_features (merge_locations df_locations df)).filter
          fun a => decide (a.row.user_id = some c) && decide (pairOf a = some p))
        = (add_features (merge_locations df_locations df)).filter
            fun fr => card_key c fr = some p := by
      apply List.filter_congr
      intro fr _
      rw [← Bool.decide_and, decide_eq_decide]
      exact (card_key_eq_some c fr p).symm
    rw [hcongr]
    apply congrArg
    apply List.map_congr_left
    intro a _
    rfl
  rw [List.map_congr_left hper]
  rw [sum_fiberwise (card_key c) f (add_features (merge_locations df_locations df))
      (card_museum_pairs (add_features (merge_locations df_locations df)))
      (List.nodup_dedup _)
      (by
        intro x hx' p hp
        have hpair : pairOf x = some p := ((card_key_eq_some c x p).mp hp).2
        exact List.mem_dedup.mpr (List.mem_filterMap.mpr ⟨x, hx', hpair⟩))]
  apply congrArg
  apply congrArg
  apply List.filter_congr
  intro fr _
  exact card_key_isSome c fr

/-- C3: for every card with at least one visit in the output of
`extract_features`, the sum of its visits' `time_since_previous_museum`
values (the first visit's null gap contributing nothing) equals the card's
`total_duration_card_use`, which is stored on every row of that card. -/
theorem sum_gaps_eq_total_duration (df_locations : List LocRow) (df : List LogRow) (c : Int)
    (h : ((extract_features df_locations df).any fun r => r.base.row.user_id = some c)
        = true) :
    ∃ D : ℚ,
      (∀ r ∈ extract_features df_locations df,
          r.base.row.user_id = some c → r.base.total_duration_card_use = some D) ∧
      (((extract_features df_locations df).filter fun r => r.base.row.user_id = some c).map
          fun r => r.base.time_since_previous_museum.getD 0).sum = D := by
  have hfc := featurize_filter_card (sort_values (merge_locations df_locations df)) c
    (sort_values (merge_locations df_locations df)) []
  rw [List.any_eq_true] at h
  obtain ⟨r0, hr0, hu0⟩ := h
  have hu0' : r0.base.row.user_id = some c := of_decide_eq_true hu0
  have hbase0 : r0.base ∈ add_features (merge_locations df_locations df) :=
    mem_extract_features_base df_locations df r0 hr0
  have h1 : r0.base ∈ (featurize (sort_values (merge_locations df_locations df)) []
      (sort_values (merge_locations df_locations df))).filter
        fun fr => fr.row.user_id = some c :=
    List.mem_filter.mpr ⟨hbase0, decide_eq_true hu0'⟩
  have h2 : r0.base.row ∈ (sort_values (merge_locations df_locations df)).filter
      fun r => r.user_id = some c := by
    rw [← hfc.1]
    exact List.mem_map_of_mem _ h1
  have hmem_ut : r0.base.row.entry_time
      ∈ user_times (sort_values (merge_locations df_locations df)) c :=
    List.mem_map_of_mem _ h2
  have hne : user_times (sort_values (merge_locations df_locations df)) c ≠ [] := by
    intro hnil
    rw [hnil] at hmem_ut
    exact List.not_mem_nil _ hmem_ut
  refine ⟨toHours ((user_times (sort_values (merge_locations df_locations df)) c).getLastD 0
      - (user_times (sort_values (merge_locations df_locations df)) c).headD 0), ?_, ?_⟩
  · intro r hr hu
    have hbase : r.base ∈ add_features (merge_locations df_locations df) :=
      mem_extract_features_base df_locations df r hr
    have hdur := featurize_duration (sort_values (merge_locations df_locations df)) _ _
      r.base hbase
    rw [hdur]
    exact total_duration_eq _ c r.base.row hu hne
  · rw [sum_over_output df_locations df c fun fr => fr.time_since_previous_museum.getD 0]
    have hfc2 : (((add_features (merge_locations df_locations df)).filter
          fun fr => fr.row.user_id = some c).map
            fun fr => fr.time_since_previous_museum)
        = diffSeq none (user_times (sort_values (merge_locations df_locations df)) c) := by
      simp only [add_features]
      rw [hfc.2]
      rfl
    have hmm : (((add_features (merge_locations df_locations df)).filter
          fun fr => fr.row.user_id = some c).map
            fun fr => fr.time_since_previous_museum.getD 0)
        = ((((add_features (merge_locations df_locations df)).filter
            fun fr => fr.row.user_id = some c).map
              fun fr => fr.time_since_previous_museum).map fun x => x.getD 0) := by
      rw [List.map_map]
      rfl
    rw [hmm, hfc2, diffSeq_none_sum]

/-- A duplicate-free list of integers all between `1` and `M` has at most `M`
elements. -/
theorem length_le_of_nodup_pos_le (L : List Int) (hnd : L.Nodup) (M : Int)
    (hpos : ∀ m ∈ L, 1 ≤ m) (hle : ∀ m ∈ L, m ≤ M) (hM : 0 ≤ M) :
    (L.length : Int) ≤ M := by
  have hsub : L.toFinset ⊆ Finset.Icc 1 M := by
    intro m hm
    rw [List.mem_toFinset] at hm
    rw [Finset.mem_Icc]
    exact ⟨hpos m hm, hle m hm⟩
  have hcard := Finset.card_le_card hsub
  rw [List.toFinset_card_of_nodup hnd, Int.card_Icc] at hcard
  omega

/-- Membership in `range(1, k)` cast to integers. -/
theorem mem_range_drop_one (k : Nat) (n : Int) :
    (n ∈ ((List.range k).drop 1).map fun j : Nat => (j : Int)) ↔ 1 ≤ n ∧ n < (k : Int) := by
  cases k with
  | zero =>
    simp only [List.range_zero, List.drop_nil, List.map_nil, List.not_mem_nil, false_iff]
    push_cast
    omega
  | succ j =>
    rw [List.range_succ_eq_map]
    simp only [List.drop_succ_cons, List.drop_zero, List.map_map, List.mem_map,
      List.mem_range, Function.comp]
    constructor
    · rintro ⟨i, hi, rfl⟩
      push_cast
      omega
    · rintro ⟨h1, h2⟩
      push_cast at h2
      refine ⟨(n - 1).toNat, ?_, ?_⟩
      · omega
      · push_cast
        omega

/-- C7: `extract_features` generates one indicator column `is_in_museum_n`
per integer `n` in `range(1, nunique)` where `nunique` is the number of
distinct museum ids of the output frame; each column is `1` on a row exactly
when the row's `museum_id` equals `n`; and (provided all museum ids are
positive) the highest-numbered museum id `M` never receives an indicator
column of its own, since `M ≥ nunique` while the generated ids stop at
`nunique - 1`. -/
theorem museum_indicator_columns (df_locations : List LocRow) (df : List LogRow) (M : Int)
    (hmem : M ∈ ((extract_features df_locations df).map fun r => r.base.row.museum_id).dedup)
    (hmax : ∀ m ∈ ((extract_features df_locations df).map
        fun r => r.base.row.museum_id).dedup, m ≤ M)
    (hpos : ∀ m ∈ ((extract_features df_locations df).map
        fun r => r.base.row.museum_id).dedup, 1 ≤ m) :
    (∀ n : Int, n ∈ museum_indicator_ids (extract_features df_locations df) ↔
        1 ≤ n ∧ n < (nunique_museum (extract_features df_locations df) : Int)) ∧
    (∀ (n : Int) (r : OutRow),
        (is_in_museum n r = 1 ↔ r.base.row.museum_id = n) ∧
        (is_in_museum n r = 0 ↔ r.base.row.museum_id ≠ n)) ∧
    M ∉ museum_indicator_ids (extract_features df_locations df) := by
  have hchar : ∀ n : Int, n ∈ museum_indicator_ids (extract_features df_locations df) ↔
      1 ≤ n ∧ n < (nunique_museum (extract_features df_locations df) : Int) := fun n =>
    mem_range_drop_one (nunique_museum (extract_features df_locations df)) n
  refine ⟨hchar, ?_, ?_⟩
  · intro n r
    unfold is_in_museum
    by_cases hmid : r.base.row.museum_id = n
    · simp [hmid]
    · simp [hmid]
  · intro hMmem
    have hlt := (hchar M).mp hMmem
    have hM0 : (0 : Int) ≤ M := le_trans (by norm_num) (hpos M hmem)
    have hnu : nunique_museum (extract_features df_locations df)
        = (((extract_features df_locations df).map
            fun r => r.base.row.museum_id).dedup).length := rfl
    have hk := length_le_of_nodup_pos_le
      ((extract_features df_locations df).map fun r => r.base.row.museum_id).dedup
      (List.nodup_dedup _) M hpos hmax hM0
    rw [← hnu] at hk
    omega

/-- Witness for C3: card 10 of the concrete log (two visits two hours apart)
has gap sum equal to its stored total duration. -/
theorem sum_gaps_eq_total_duration_witness :
    ∃ D : ℚ,
      (∀ r ∈ extract_features exLocs exLogs,
          r.base.row.user_id = some 10 → r.base.total_duration_card_use = some D) ∧
      (((extract_features exLocs exLogs).filter fun r => r.base.row.user_id = some 10).map
          fun r => r.base.time_since_previous_museum.getD 0).sum = D :=
  sum_gaps_eq_total_duration exLocs exLogs 10 (by decide)

/-- Witness for C6: card 11 of the concrete log has a single visit, a null
gap and a zero total duration. -/
theorem gap_matches_previous_visit_witness :
    (visits_of_card exLocs exLogs 11).length = 1 ∧
    ((visits_of_card exLocs exLogs 11).map fun fr => fr.time_since_previous_museum)
        = [none] ∧
    ((visits_of_card exLocs exLogs 11).map fun fr => fr.total_duration_card_use)
        = [some 0] :=
  ⟨by decide, (gap_matches_previous_visit exLocs exLogs 11).2.2 (by decide)⟩

/-- Witness for C7: on the concrete log the distinct museum ids are 1 and 2,
a single indicator column `is_in_museum_1` is generated, and the highest
museum id 2 has no indicator column. -/
theorem museum_indicator_columns_witness :
    (∀ n : Int, n ∈ museum_indicator_ids (extract_features exLocs exLogs) ↔
        1 ≤ n ∧ n < (nunique_museum (extract_features exLocs exLogs) : Int)) ∧
    (∀ (n : Int) (r : OutRow),
        (is_in_museum n r = 1 ↔ r.base.row.museum_id = n) ∧
        (is_in_museum n r = 0 ↔ r.base.row.museum_id ≠ n)) ∧
    (2 : Int) ∉ museum_indicator_ids (extract_features exLocs exLogs) :=
  museum_indicator_columns exLocs exLogs 2 (by decide) (by decide) (by decide)
